import Mathlib

/-!
Shallow embedding of the deduplicator pipeline (MinHash → LSH → external
sort/merge → grouping → filter building → filter application), translated
from the Rust sources `minhash.rs`, `lsh.rs`, `operations.rs` and
`context.rs`.  Machine integers are modelled as `Nat` with explicit
`% 2^32` where wrapping matters; fallible code returns `Option` (with
`none` standing for a failed `assert!`/fatal error); the external hash
functions (CityHash 32/64-bit) and the PRNG are opaque collaborators and
appear as explicit function parameters.
-/

/-- The packed LSH bucket record `LshBucketRow` from `lsh.rs`:
`(bucket_index: u8, bucket_hash: u64, path_hash: u16, content_hash: u64)`. -/
structure LshBucketRow where
  bucket_index : Nat
  bucket_hash : Nat
  path_hash : Nat
  content_hash : Nat
deriving DecidableEq, Repr

/-- The natural (derived `Ord`) order on records: lexicographic on
`(bucket_index, bucket_hash, path_hash, content_hash)`. -/
def rowLe (a b : LshBucketRow) : Prop :=
  a.bucket_index < b.bucket_index ∨
    (a.bucket_index = b.bucket_index ∧
      (a.bucket_hash < b.bucket_hash ∨
        (a.bucket_hash = b.bucket_hash ∧
          (a.path_hash < b.path_hash ∨
            (a.path_hash = b.path_hash ∧ a.content_hash ≤ b.content_hash)))))

instance rowLe.instDecidable : DecidableRel rowLe := fun a b =>
  inferInstanceAs (Decidable
    (a.bucket_index < b.bucket_index ∨
      (a.bucket_index = b.bucket_index ∧
        (a.bucket_hash < b.bucket_hash ∨
          (a.bucket_hash = b.bucket_hash ∧
            (a.path_hash < b.path_hash ∨
              (a.path_hash = b.path_hash ∧ a.content_hash ≤ b.content_hash)))))))

/-- Strict version of the natural record order. -/
def rowLt (a b : LshBucketRow) : Prop := rowLe a b ∧ ¬ rowLe b a

instance rowLt.instDecidable : DecidableRel rowLt := fun a b =>
  inferInstanceAs (Decidable (rowLe a b ∧ ¬ rowLe b a))

theorem rowLe_refl (a : LshBucketRow) : rowLe a a := by
  unfold rowLe; omega

theorem rowLe_total (a b : LshBucketRow) : rowLe a b ∨ rowLe b a := by
  unfold rowLe; omega

theorem rowLe_trans {a b c : LshBucketRow} (h1 : rowLe a b) (h2 : rowLe b c) :
    rowLe a c := by
  unfold rowLe at *; omega

theorem rowLe_antisymm {a b : LshBucketRow} (h1 : rowLe a b) (h2 : rowLe b a) :
    a = b := by
  cases a; cases b
  unfold rowLe at *
  simp_all only [LshBucketRow.mk.injEq]
  omega

/-- The ordering assertion performed by `LshBucketRowsFileReader::next`
(`lsh.rs`): `prev.bucket_index < result.bucket_index ||
(prev.bucket_index == result.bucket_index && prev.bucket_hash <= result.bucket_hash)`. -/
def readerOrderCheck (prev result : LshBucketRow) : Prop :=
  prev.bucket_index < result.bucket_index ∨
    (prev.bucket_index = result.bucket_index ∧ prev.bucket_hash ≤ result.bucket_hash)

instance readerOrderCheck.instDecidable : DecidableRel readerOrderCheck := fun a b =>
  inferInstanceAs (Decidable
    (a.bucket_index < b.bucket_index ∨
      (a.bucket_index = b.bucket_index ∧ a.bucket_hash ≤ b.bucket_hash)))

/-- One step of `LshBucketRowsFileReader::next` on an already-decoded record:
given the previously returned record (if any) and the current one, either
return the current record or fail fatally (`none`, the `assert!`). -/
def readerNext (prev : Option LshBucketRow) (result : LshBucketRow) :
    Option LshBucketRow :=
  match prev with
  | none => some result
  | some p => if readerOrderCheck p result then some result else none

/-- The lexicographic order on the `(bucket_index, bucket_hash)` prefix only. -/
def rowPrefixLe (a b : LshBucketRow) : Prop :=
  a.bucket_index < b.bucket_index ∨
    (a.bucket_index = b.bucket_index ∧ a.bucket_hash ≤ b.bucket_hash)

instance rowPrefixLe.instDecidable : DecidableRel rowPrefixLe := fun a b =>
  inferInstanceAs (Decidable
    (a.bucket_index < b.bucket_index ∨
      (a.bucket_index = b.bucket_index ∧ a.bucket_hash ≤ b.bucket_hash)))

/-- Constant `NUM_PERM` from `minhash.rs`. -/
def NUM_PERM : Nat := 256

/-- The value `u32::MAX`. -/
def U32_MAX : Nat := 2 ^ 32 - 1

/-- The loop body of the `PERMUTATIONS` initializer in `minhash.rs`.  The
PRNG is abstract: `genRange lo hi g` models `gen.gen_range(lo..hi)`,
returning the drawn value and the advanced generator state.  Note that the
source pushes BOTH draws of each iteration into the FIRST vector of the
pair (`permutations.0`) and never touches the second. -/
def permLoop {σ : Type} (genRange : Nat → Nat → σ → Nat × σ) :
    Nat → σ → List Nat × List Nat → List Nat × List Nat
  | 0, _, acc => acc
  | n + 1, g, acc =>
      let d1 := genRange 1 U32_MAX g
      let d2 := genRange 0 U32_MAX d1.2
      permLoop genRange n d2.2 (acc.1 ++ [d1.1, d2.1], acc.2)

/-- Model of `PERMUTATIONS` from `minhash.rs`: `NUM_PERM` loop iterations, each
pushing `gen_range(1..u32::MAX)` and then `gen_range(0..u32::MAX)` into
`permutations.0`; `g0` models `ChaCha8Rng::seed_from_u64(1)`. -/
def PERMUTATIONS {σ : Type} (genRange : Nat → Nat → σ → Nat × σ) (g0 : σ) :
    List Nat × List Nat :=
  permLoop genRange NUM_PERM g0 ([], [])

theorem permLoop_snd {σ : Type} (genRange : Nat → Nat → σ → Nat × σ) :
    ∀ (n : Nat) (g : σ) (acc : List Nat × List Nat),
      (permLoop genRange n g acc).2 = acc.2 := by
  intro n
  induction n with
  | zero => intro g acc; rfl
  | succ n ih => intro g acc; simp only [permLoop]; exact ih _ _

theorem permLoop_fst_length {σ : Type} (genRange : Nat → Nat → σ → Nat × σ) :
    ∀ (n : Nat) (g : σ) (acc : List Nat × List Nat),
      (permLoop genRange n g acc).1.length = acc.1.length + 2 * n := by
  intro n
  induction n with
  | zero => intro g acc; simp [permLoop]
  | succ n ih =>
      intro g acc
      simp only [permLoop]
      rw [ih]
      simp
      omega

/-- The builder state of `MinHashBuilder` (`minhash.rs`): a scratch
`buffer` and the running `values` vector. -/
structure MinHashBuilder where
  buffer : List Nat
  values : List Nat
deriving DecidableEq, Repr

/-- Model of `MinHashBuilder::new`: `buffer = vec![0; NUM_PERM]`,
`values = vec![u32::MAX; NUM_PERM]`. -/
def MinHashBuilder.new : MinHashBuilder :=
  { buffer := List.replicate NUM_PERM 0
    values := List.replicate NUM_PERM U32_MAX }

/-- The first loop of `MinHashBuilder::update`:
`for (x, y) in zip(&mut self.buffer, &PERMUTATIONS.0) { *x = y.wrapping_mul(hash) }`.
Buffer entries beyond the length of `A` keep their old values. -/
def applyMul (buffer A : List Nat) (h : Nat) : List Nat :=
  List.zipWith (fun _ y => y * h % 2 ^ 32) buffer A ++ buffer.drop A.length

/-- The second loop of `MinHashBuilder::update`:
`for (x, y) in zip(&mut self.buffer, &PERMUTATIONS.1) { *x = x.wrapping_add(*y) }`. -/
def applyAdd (buffer B : List Nat) : List Nat :=
  List.zipWith (fun x y => (x + y) % 2 ^ 32) buffer B ++ buffer.drop B.length

/-- Model of `MinHashBuilder::update` on an already-hashed token (`h = h32(tok)`),
parameterized by the permutation pair `perms`. -/
def MinHashBuilder.update (perms : List Nat × List Nat)
    (st : MinHashBuilder) (h : Nat) : MinHashBuilder :=
  let b := applyAdd (applyMul st.buffer perms.1 h) perms.2
  { buffer := b, values := List.zipWith min st.values b }

theorem applyMul_length (buffer A : List Nat) (h : Nat) :
    (applyMul buffer A h).length = buffer.length := by
  simp [applyMul]
  omega

theorem applyAdd_length (buffer B : List Nat) :
    (applyAdd buffer B).length = buffer.length := by
  simp [applyAdd]
  omega

theorem applyAdd_nil (buffer : List Nat) : applyAdd buffer [] = buffer := by
  simp [applyAdd]

theorem update_buffer_length (perms : List Nat × List Nat)
    (st : MinHashBuilder) (h : Nat) :
    (MinHashBuilder.update perms st h).buffer.length = st.buffer.length := by
  simp [MinHashBuilder.update, applyAdd_length, applyMul_length]

/-- The character class accepted by the tokenizer: the complement of the
split regex `[^А-Яа-яёЁA-Za-z_0-9]+` in `minhash.rs` — Latin letters,
digits, underscore, the contiguous Cyrillic block А..я (U+0410..U+044F)
and the two letters Ё (U+0401) and ё (U+0451). -/
def isTokenChar (c : Char) : Bool :=
  let n := c.toNat
  (0x41 ≤ n && n ≤ 0x5A) || (0x61 ≤ n && n ≤ 0x7A) ||
    (0x30 ≤ n && n ≤ 0x39) || n == 0x5F ||
    (0x410 ≤ n && n ≤ 0x44F) || n == 0x401 || n == 0x451

/-- Models `char`-wise lowercasing of `str::to_lowercase` restricted to
the character classes the tokenizer distinguishes: ASCII `A`..`Z` and the
Cyrillic uppercase letters А..Я and Ё fold to their lowercase
counterparts; every other character is mapped to itself. -/
def lowerChar (c : Char) : Char :=
  let n := c.toNat
  if 0x41 ≤ n && n ≤ 0x5A then Char.ofNat (n + 0x20)
  else if 0x410 ≤ n && n ≤ 0x42F then Char.ofNat (n + 0x20)
  else if n == 0x401 then Char.ofNat 0x451
  else c

/-- Model of `text.to_lowercase()` under the `lowerChar` model. -/
def toLowercase (s : String) : String :=
  String.mk (s.toList.map lowerChar)

/-- Splitting a character list into the maximal runs of token characters:
the effect of `TEXT_SPLITTER.split(..)` followed by discarding empty
pieces in `hash_text` (`minhash.rs`).  `acc` is the reversed current run. -/
def splitRuns : List Char → List Char → List (List Char)
  | [], acc => if acc.isEmpty then [] else [acc.reverse]
  | c :: cs, acc =>
      if isTokenChar c then splitRuns cs (c :: acc)
      else (if acc.isEmpty then [] else [acc.reverse]) ++ splitRuns cs []

/-- The token list of a (already lowercased) string. -/
def tokenizeString (s : String) : List String :=
  (splitRuns s.toList []).map String.mk

/-- Model of `hash_text` (`minhash.rs`) down to the final `values` vector of the
built `MinHash`: lowercase, tokenize, fold `MinHashBuilder::update` over
the tokens.  `h32` models `cityhasher::hash::<u32>` on tokens and `perms`
the global `PERMUTATIONS`. -/
def hash_text (perms : List Nat × List Nat) (h32 : String → Nat)
    (text : String) : List Nat :=
  ((tokenizeString (toLowercase text)).foldl
    (fun st tok => MinHashBuilder.update perms st (h32 tok))
    MinHashBuilder.new).values

/-- Constant `LSH_RANGE` from `lsh.rs`. -/
def LSH_RANGE : Nat := 15

/-- Constant `LSH_BUCKETS` from `lsh.rs`. -/
def LSH_BUCKETS : Nat := 17

/-- Little-endian byte image of one `u32` signature slot. -/
def u32Bytes (v : Nat) : List Nat :=
  [v % 2 ^ 8, v / 2 ^ 8 % 2 ^ 8, v / 2 ^ 16 % 2 ^ 8, v / 2 ^ 24 % 2 ^ 8]

/-- The raw 60-byte image of one 15-slot band, as reinterpreted by
`create_lsh_buckets` (`lsh.rs`). -/
def bandBytes (band : List Nat) : List Nat :=
  band.flatMap u32Bytes

/-- Model of `create_lsh_buckets` (`lsh.rs`): for each of the 17 bands, hash the
60-byte image of signature slots `[index*15, index*15+15)` with the
64-bit hash `h64` (modelling `cityhasher::hash::<u64>`), producing the
`(index, hash)` pairs of the emitted `LshBucket`s. -/
def create_lsh_buckets (h64 : List Nat → Nat) (minhash : List Nat) :
    List (Nat × Nat) :=
  (List.range LSH_BUCKETS).map (fun index =>
    (index, h64 (bandBytes ((minhash.drop (index * LSH_RANGE)).take LSH_RANGE))))

/-- The per-row part of `parquet_file_to_lsh_rows` (`operations.rs`): one
`LshBucketRow` per LSH bucket of the row's text, carrying the file's path
hash and the row's content hash. -/
def rowsForText (perms : List Nat × List Nat) (h32 : String → Nat)
    (h64 : List Nat → Nat) (path_hash content_hash : Nat) (text : String) :
    List LshBucketRow :=
  (create_lsh_buckets h64 (hash_text perms h32 text)).map
    (fun x => ⟨x.1, x.2, path_hash, content_hash⟩)

/-- C2 (code bug evidence): the permutation family as built by
`minhash.rs` is NOT a pair of vectors of length `NUM_PERM` each — the
initializer pushes both draws of every iteration into `permutations.0`,
so for every PRNG the first vector has length `2 * NUM_PERM = 512` and
the second is empty; consequently the `wrapping_add` loop of
`MinHashBuilder::update` (which zips with the empty second vector) is a
no-op and the claimed `+ B[i]` term never contributes. -/
theorem c2_permutations_code_bug {σ : Type}
    (genRange : Nat → Nat → σ → Nat × σ) (g0 : σ) :
    (PERMUTATIONS genRange g0).2 = [] ∧
    (PERMUTATIONS genRange g0).1.length = 2 * NUM_PERM ∧
    (PERMUTATIONS genRange g0).1.length ≠ NUM_PERM ∧
    (∀ buffer : List Nat, applyAdd buffer (PERMUTATIONS genRange g0).2 = buffer) := by
  have hsnd : (PERMUTATIONS genRange g0).2 = [] :=
    permLoop_snd genRange NUM_PERM g0 ([], [])
  have hlen : (PERMUTATIONS genRange g0).1.length = 2 * NUM_PERM := by
    have := permLoop_fst_length genRange NUM_PERM g0 ([], [])
    simpa [PERMUTATIONS] using this
  refine ⟨hsnd, hlen, ?_, ?_⟩
  · rw [hlen]; decide
  · intro buffer; rw [hsnd]; exact applyAdd_nil buffer

/-- C3 (counterexample): two consecutive records that are strictly
DECREASING in the natural record order (the second has a smaller
`path_hash` with equal `(bucket_index, bucket_hash)`), yet
`LshBucketRowsFileReader::next` accepts them without a fatal error. -/
theorem c3_counterexample :
    ¬ rowLe (⟨0, 0, 1, 0⟩ : LshBucketRow) ⟨0, 0, 0, 0⟩ ∧
    readerNext (some ⟨0, 0, 1, 0⟩) ⟨0, 0, 0, 0⟩ = some ⟨0, 0, 0, 0⟩ := by
  constructor
  · decide
  · decide

/-- C3 (amended): the run-file reader's `next()` enforces, between every
pair of consecutive records, only the lexicographic order on the
`(bucket_index, bucket_hash)` prefix: it is fatal exactly when that
prefix order is violated, and a record equal in the prefix is accepted
regardless of `path_hash` and `content_hash`. -/
theorem c3_reader_enforces_prefix_order (p c : LshBucketRow) :
    (readerNext (some p) c = none ↔ ¬ rowPrefixLe p c) ∧
    (readerNext (some p) c = some c ↔ rowPrefixLe p c) ∧
    (readerNext none c = some c) := by
  have hiff : readerOrderCheck p c ↔ rowPrefixLe p c := Iff.rfl
  refine ⟨?_, ?_, rfl⟩ <;>
    · simp only [readerNext]
      split <;> simp_all

/-- C7: for a row whose text is the empty string, the token list is
empty, every one of the 256 signature slots of `hash_text` remains at
`u32::MAX`, the row still yields exactly 17 `LshBucketRow` records, and
the `(bucket_index, bucket_hash)` components of those records are
independent of the row's `path_hash`/`content_hash` — so two empty-text
rows emit identical bucket hashes and can group together. -/
theorem c7_empty_text {σ : Type} (genRange : Nat → Nat → σ → Nat × σ)
    (g0 : σ) (h32 : String → Nat) (h64 : List Nat → Nat)
    (ph ch ph' ch' : Nat) :
    tokenizeString (toLowercase "") = [] ∧
    hash_text (PERMUTATIONS genRange g0) h32 "" =
      List.replicate NUM_PERM U32_MAX ∧
    (rowsForText (PERMUTATIONS genRange g0) h32 h64 ph ch "").length =
      LSH_BUCKETS ∧
    (rowsForText (PERMUTATIONS genRange g0) h32 h64 ph ch "").map
        (fun r => (r.bucket_index, r.bucket_hash)) =
      (rowsForText (PERMUTATIONS genRange g0) h32 h64 ph' ch' "").map
        (fun r => (r.bucket_index, r.bucket_hash)) := by
  refine ⟨rfl, rfl, ?_, ?_⟩
  · simp [rowsForText, create_lsh_buckets]
  · simp [rowsForText, List.map_map]

/-- The contents of the scratch buffer after one `update` with token hash
`h`, when the buffer has length `n ≤ |A|`: the first `n` entries of `A`
multiplied by `h` (wrapping), then `wrapping_add`-ed with `B`. -/
def tokenBuf (perms : List Nat × List Nat) (n h : Nat) : List Nat :=
  applyAdd ((perms.1.take n).map (fun y => y * h % 2 ^ 32)) perms.2

theorem zipWith_const_snd (f : Nat → Nat) :
    ∀ (l A : List Nat),
      List.zipWith (fun _ y => f y) l A = (A.take l.length).map f
  | [], _ => by simp
  | _ :: _, [] => by simp
  | x :: l, a :: A => by
      simp [List.zipWith, zipWith_const_snd f l A]

theorem applyMul_eq_of_le (buffer A : List Nat) (h : Nat)
    (hle : buffer.length ≤ A.length) :
    applyMul buffer A h = (A.take buffer.length).map (fun y => y * h % 2 ^ 32) := by
  unfold applyMul
  rw [zipWith_const_snd, List.drop_eq_nil_of_le hle, List.append_nil]

theorem tokenBuf_length (perms : List Nat × List Nat) (n h : Nat)
    (hle : n ≤ perms.1.length) : (tokenBuf perms n h).length = n := by
  simp [tokenBuf, applyAdd_length]
  omega

theorem update_eq_tokenBuf (perms : List Nat × List Nat)
    (st : MinHashBuilder) (h : Nat) (hle : st.buffer.length ≤ perms.1.length) :
    MinHashBuilder.update perms st h =
      { buffer := tokenBuf perms st.buffer.length h
        values := List.zipWith min st.values (tokenBuf perms st.buffer.length h) } := by
  unfold MinHashBuilder.update tokenBuf
  rw [applyMul_eq_of_le _ _ _ hle]

theorem zipWith_min_absorb :
    ∀ (v w : List Nat),
      List.zipWith min (List.zipWith min v w) w = List.zipWith min v w
  | [], _ => by simp
  | _ :: _, [] => by simp
  | a :: v, b :: w => by
      simp only [List.zipWith, List.cons.injEq]
      exact ⟨by rw [min_assoc, min_self], zipWith_min_absorb v w⟩

theorem zipWith_min_right_comm :
    ∀ (v w u : List Nat),
      List.zipWith min (List.zipWith min v w) u =
        List.zipWith min (List.zipWith min v u) w
  | [], _, _ => by simp
  | _ :: _, [], _ => by simp
  | _ :: _, _ :: _, [] => by simp
  | a :: v, b :: w, c :: u => by
      simp only [List.zipWith, List.cons.injEq]
      exact ⟨min_right_comm a b c, zipWith_min_right_comm v w u⟩

/-- One step of the signature fold: the pointwise `min` of the running
values with the buffer produced for token hash `h`. -/
def sigStep (perms : List Nat × List Nat) (n : Nat) (v : List Nat) (h : Nat) :
    List Nat :=
  List.zipWith min v (tokenBuf perms n h)

theorem foldl_update_values (perms : List Nat × List Nat) (n : Nat)
    (hle : n ≤ perms.1.length) :
    ∀ (hs : List Nat) (st : MinHashBuilder), st.buffer.length = n →
      (hs.foldl (MinHashBuilder.update perms) st).values =
        hs.foldl (sigStep perms n) st.values
  | [], st, _ => rfl
  | h :: hs, st, hn => by
      simp only [List.foldl]
      rw [update_eq_tokenBuf perms st h (hn ▸ hle)]
      rw [foldl_update_values perms n hle hs _ (by simp [tokenBuf_length perms n h hle, hn])]
      simp [sigStep, hn]

theorem sigFold_zmin_out (perms : List Nat × List Nat) (n : Nat) :
    ∀ (l : List Nat) (v w : List Nat),
      List.zipWith min (l.foldl (sigStep perms n) v) w =
        l.foldl (sigStep perms n) (List.zipWith min v w)
  | [], _, _ => rfl
  | h :: l, v, w => by
      simp only [List.foldl]
      rw [sigFold_zmin_out perms n l (sigStep perms n v h) w]
      simp only [sigStep]
      rw [zipWith_min_right_comm]

theorem sigFold_absorb_mem (perms : List Nat × List Nat) (n : Nat) :
    ∀ (l : List Nat) (v : List Nat) (h : Nat), h ∈ l →
      List.zipWith min (l.foldl (sigStep perms n) v) (tokenBuf perms n h) =
        l.foldl (sigStep perms n) v
  | [], _, _, hmem => absurd hmem (List.not_mem_nil _)
  | h' :: l, v, h, hmem => by
      rcases List.mem_cons.1 hmem with heq | hmem'
      · subst heq
        simp only [List.foldl]
        rw [sigFold_zmin_out perms n l (sigStep perms n v h) (tokenBuf perms n h)]
        simp only [sigStep]
        rw [zipWith_min_absorb]
      · simp only [List.foldl]
        exact sigFold_absorb_mem perms n l (sigStep perms n v h') h hmem'

theorem sigFold_subset (perms : List Nat × List Nat) (n : Nat) :
    ∀ (l2 l1 v : List Nat), (∀ x ∈ l2, x ∈ l1) →
      l2.foldl (sigStep perms n) (l1.foldl (sigStep perms n) v) =
        l1.foldl (sigStep perms n) v
  | [], _, _, _ => rfl
  | h :: l2, l1, v, hsub => by
      simp only [List.foldl]
      have hstep : sigStep perms n (l1.foldl (sigStep perms n) v) h =
          l1.foldl (sigStep perms n) v := by
        simp only [sigStep]
        exact sigFold_absorb_mem perms n l1 v h (hsub h (List.mem_cons_self h l2))
      rw [hstep]
      exact sigFold_subset perms n l2 l1 v (fun x hx => hsub x (List.mem_cons_of_mem h hx))

theorem sigFold_swap (perms : List Nat × List Nat) (n : Nat) :
    ∀ (l1 l2 v : List Nat),
      l2.foldl (sigStep perms n) (l1.foldl (sigStep perms n) v) =
        l1.foldl (sigStep perms n) (l2.foldl (sigStep perms n) v)
  | [], _, _ => rfl
  | h :: l1, l2, v => by
      simp only [List.foldl]
      rw [sigFold_swap perms n l1 l2 (sigStep perms n v h)]
      have hcomm : l2.foldl (sigStep perms n) (sigStep perms n v h) =
          sigStep perms n (l2.foldl (sigStep perms n) v) h := by
        simp only [sigStep]
        rw [sigFold_zmin_out]
      rw [hcomm]

theorem sigFold_eq_of_mem_iff (perms : List Nat × List Nat) (n : Nat)
    (l1 l2 v : List Nat) (h12 : ∀ x ∈ l1, x ∈ l2) (h21 : ∀ x ∈ l2, x ∈ l1) :
    l1.foldl (sigStep perms n) v = l2.foldl (sigStep perms n) v := by
  have e1 : l2.foldl (sigStep perms n) (l1.foldl (sigStep perms n) v) =
      l1.foldl (sigStep perms n) v := sigFold_subset perms n l2 l1 v h21
  have e2 : l1.foldl (sigStep perms n) (l2.foldl (sigStep perms n) v) =
      l2.foldl (sigStep perms n) v := sigFold_subset perms n l1 l2 v h12
  calc l1.foldl (sigStep perms n) v
      = l2.foldl (sigStep perms n) (l1.foldl (sigStep perms n) v) := e1.symm
    _ = l1.foldl (sigStep perms n) (l2.foldl (sigStep perms n) v) :=
        sigFold_swap perms n l1 l2 v
    _ = l2.foldl (sigStep perms n) v := e2

theorem new_buffer_length : MinHashBuilder.new.buffer.length = NUM_PERM := by
  simp [MinHashBuilder.new]

theorem PERMUTATIONS_fst_length {σ : Type}
    (genRange : Nat → Nat → σ → Nat × σ) (g0 : σ) :
    NUM_PERM ≤ (PERMUTATIONS genRange g0).1.length := by
  have := permLoop_fst_length genRange NUM_PERM g0 ([], [])
  simp only [PERMUTATIONS]
  omega

theorem hash_text_eq_sigFold {σ : Type} (genRange : Nat → Nat → σ → Nat × σ)
    (g0 : σ) (h32 : String → Nat) (t : String) :
    hash_text (PERMUTATIONS genRange g0) h32 t =
      ((tokenizeString (toLowercase t)).map h32).foldl
        (sigStep (PERMUTATIONS genRange g0) NUM_PERM)
        MinHashBuilder.new.values := by
  unfold hash_text
  rw [show (fun st tok => MinHashBuilder.update (PERMUTATIONS genRange g0) st (h32 tok)) =
      (fun st tok => MinHashBuilder.update (PERMUTATIONS genRange g0) st ((fun x => x) (h32 tok)))
    from rfl]
  rw [← List.foldl_map h32 (MinHashBuilder.update (PERMUTATIONS genRange g0))]
  exact foldl_update_values (PERMUTATIONS genRange g0) NUM_PERM
    (PERMUTATIONS_fst_length genRange g0) _ _ new_buffer_length

/-- C9: the MinHash signature produced by `hash_text` depends only on the
set of distinct tokens of the lowercased text — two texts whose token
lists have the same members yield identical signatures — and the
per-token update is idempotent: updating the builder twice with the same
token hash yields the same `values` as updating once, so repeated tokens
never change the signature. -/
theorem c9_signature_depends_on_token_set {σ : Type}
    (genRange : Nat → Nat → σ → Nat × σ) (g0 : σ) (h32 : String → Nat)
    (t1 t2 : String)
    (h12 : ∀ tok ∈ tokenizeString (toLowercase t1), tok ∈ tokenizeString (toLowercase t2))
    (h21 : ∀ tok ∈ tokenizeString (toLowercase t2), tok ∈ tokenizeString (toLowercase t1)) :
    hash_text (PERMUTATIONS genRange g0) h32 t1 =
      hash_text (PERMUTATIONS genRange g0) h32 t2 ∧
    ∀ (st : MinHashBuilder) (h : Nat),
      st.buffer.length ≤ (PERMUTATIONS genRange g0).1.length →
      (MinHashBuilder.update (PERMUTATIONS genRange g0)
        (MinHashBuilder.update (PERMUTATIONS genRange g0) st h) h).values =
      (MinHashBuilder.update (PERMUTATIONS genRange g0) st h).values := by
  constructor
  · rw [hash_text_eq_sigFold genRange g0 h32 t1,
      hash_text_eq_sigFold genRange g0 h32 t2]
    apply sigFold_eq_of_mem_iff
    · intro x hx
      rcases List.mem_map.1 hx with ⟨tok, htok, rfl⟩
      exact List.mem_map.2 ⟨tok, h12 tok htok, rfl⟩
    · intro x hx
      rcases List.mem_map.1 hx with ⟨tok, htok, rfl⟩
      exact List.mem_map.2 ⟨tok, h21 tok htok, rfl⟩
  · intro st h hle
    rw [update_eq_tokenBuf _ st h hle]
    rw [update_eq_tokenBuf _ _ h
      (by simpa [tokenBuf_length _ _ _ hle] using hle)]
    simp only [tokenBuf_length _ _ _ hle]
    exact zipWith_min_absorb _ _

/-- Witness for C9 at the texts "a a" and "a" (same distinct-token set,
different repetitions) with a trivial PRNG and token hash. -/
theorem c9_witness :
    (∀ tok ∈ tokenizeString (toLowercase "a a"), tok ∈ tokenizeString (toLowercase "a")) ∧
    (∀ tok ∈ tokenizeString (toLowercase "a"), tok ∈ tokenizeString (toLowercase "a a")) ∧
    hash_text (PERMUTATIONS (fun lo _ (g : Nat) => (lo, g)) 0) (fun _ => 7) "a a" =
      hash_text (PERMUTATIONS (fun lo _ (g : Nat) => (lo, g)) 0) (fun _ => 7) "a" :=
  ⟨by decide, by decide,
    (c9_signature_depends_on_token_set (fun lo _ (g : Nat) => (lo, g)) 0
      (fun _ => 7) "a a" "a" (by decide) (by decide)).1⟩

/-- One item of a `DuplicatesGroup` (`operations.rs`). -/
structure DuplicatesGroupItem where
  path_hash : Nat
  content_hash : Nat
deriving DecidableEq, Repr

/-- The comparator of the `group.sort_by` call in the grouper's `flush`
closure: `a.content_hash().cmp(&b.content_hash())`. -/
def contentLe (a b : LshBucketRow) : Prop :=
  a.content_hash ≤ b.content_hash

instance contentLe.instDecidable : DecidableRel contentLe := fun a b =>
  inferInstanceAs (Decidable (a.content_hash ≤ b.content_hash))

instance contentLe.instIsTotal : IsTotal LshBucketRow contentLe :=
  ⟨fun a b => Nat.le_total a.content_hash b.content_hash⟩

instance contentLe.instIsTrans : IsTrans LshBucketRow contentLe :=
  ⟨fun _ _ _ h1 h2 => Nat.le_trans h1 h2⟩

/-- The grouping loop of `find_duplicates_in_lsh_buckets_files`
(`operations.rs`), producing the buffers handed to `flush` in order:
push onto the buffer while the record shares `(bucket_index, bucket_hash)`
with the buffer's first element, otherwise emit the buffer when it holds
more than one record and restart from the current record; at end of
stream emit the final buffer when it holds more than one record. -/
def grouperRuns : List LshBucketRow → List LshBucketRow → List (List LshBucketRow)
  | buf, [] => if 1 < buf.length then [buf] else []
  | buf, r :: rest =>
      match buf with
      | [] => grouperRuns [r] rest
      | b0 :: _ =>
          if b0.bucket_index = r.bucket_index ∧ b0.bucket_hash = r.bucket_hash then
            grouperRuns (buf ++ [r]) rest
          else
            (if 1 < buf.length then [buf] else []) ++ grouperRuns [r] rest

/-- The `flush` closure of `find_duplicates_in_lsh_buckets_files`: sort
the buffer by `content_hash` ascending (a stable sort, as Rust's
`sort_by`) and project every record to a `DuplicatesGroupItem`. -/
def flushGroup (g : List LshBucketRow) : List DuplicatesGroupItem :=
  (List.insertionSort contentLe g).map (fun r => ⟨r.path_hash, r.content_hash⟩)

/-- Model of `find_duplicates_in_lsh_buckets_files` (`operations.rs`) on an
already-merged stream of records: the sequence of duplicate groups
written to the output, in emission order. -/
def find_duplicates_in_lsh_buckets (stream : List LshBucketRow) :
    List (List DuplicatesGroupItem) :=
  (grouperRuns [] stream).map flushGroup

theorem grouperRuns_props :
    ∀ (stream buf : List LshBucketRow) (k : Nat × Nat),
      (∀ x ∈ buf, x.bucket_index = k.1 ∧ x.bucket_hash = k.2) →
      ∀ g ∈ grouperRuns buf stream,
        2 ≤ g.length ∧
          ∃ k' : Nat × Nat, ∀ x ∈ g, x.bucket_index = k'.1 ∧ x.bucket_hash = k'.2
  | [], buf, k, hinv, g, hg => by
      simp only [grouperRuns] at hg
      split at hg
      · rcases List.mem_singleton.1 hg with rfl
        refine ⟨by omega, k, hinv⟩
      · exact absurd hg (List.not_mem_nil g)
  | r :: rest, buf, k, hinv, g, hg => by
      match buf, hinv with
      | [], _ =>
          exact grouperRuns_props rest [r] (r.bucket_index, r.bucket_hash)
            (by intro x hx; rcases List.mem_singleton.1 hx with rfl; exact ⟨rfl, rfl⟩)
            g hg
      | b0 :: bs, hinv =>
          simp only [grouperRuns] at hg
          split at hg
          · rename_i hsame
            refine grouperRuns_props rest ((b0 :: bs) ++ [r]) k ?_ g hg
            intro x hx
            rcases List.mem_append.1 hx with hx | hx
            · exact hinv x hx
            · rcases List.mem_singleton.1 hx with rfl
              have hb0 := hinv b0 (List.mem_cons_self b0 bs)
              exact ⟨hsame.1 ▸ hb0.1, hsame.2 ▸ hb0.2⟩
          · rcases List.mem_append.1 hg with hg | hg
            · split at hg
              · rcases List.mem_singleton.1 hg with rfl
                refine ⟨by omega, k, hinv⟩
              · exact absurd hg (List.not_mem_nil g)
            · exact grouperRuns_props rest [r] (r.bucket_index, r.bucket_hash)
                (by intro x hx; rcases List.mem_singleton.1 hx with rfl; exact ⟨rfl, rfl⟩)
                g hg

theorem flushGroup_length (g : List LshBucketRow) :
    (flushGroup g).length = g.length := by
  simp [flushGroup]

theorem flushGroup_sorted (g : List LshBucketRow) :
    List.Sorted (fun a b : DuplicatesGroupItem => a.content_hash ≤ b.content_hash)
      (flushGroup g) := by
  unfold flushGroup
  refine List.Pairwise.map _ ?_ (List.sorted_insertionSort contentLe g)
  intro a b hab
  exact hab

/-- C4: every group handed to the grouper's `flush` has size at least 2,
all of its members share one `(bucket_index, bucket_hash)` pair at the
time of emission, and the emitted group (the buffer sorted by
`content_hash` and projected to items) again has size at least 2 and is
sorted by `content_hash` ascending; `grouperRuns` also covers the final
group emitted at end of stream. -/
theorem c4_grouper_groups (stream : List LshBucketRow)
    (g : List LshBucketRow) (hg : g ∈ grouperRuns [] stream) :
    2 ≤ g.length ∧
    (∀ r ∈ g, ∀ r' ∈ g,
      r.bucket_index = r'.bucket_index ∧ r.bucket_hash = r'.bucket_hash) ∧
    2 ≤ (flushGroup g).length ∧
    List.Sorted (fun a b : DuplicatesGroupItem => a.content_hash ≤ b.content_hash)
      (flushGroup g) := by
  obtain ⟨hlen, k', hk'⟩ :=
    grouperRuns_props stream [] (0, 0) (by intro x hx; cases hx) g hg
  refine ⟨hlen, ?_, ?_, flushGroup_sorted g⟩
  · intro r hr r' hr'
    obtain ⟨h1, h2⟩ := hk' r hr
    obtain ⟨h1', h2'⟩ := hk' r' hr'
    exact ⟨h1.trans h1'.symm, h2.trans h2'.symm⟩
  · rw [flushGroup_length]; exact hlen

/-- Witness for C4 on the concrete merged stream
`[(0,0,1,7), (0,0,2,3)]`, whose single group is the final one emitted at
end of stream. -/
theorem c4_grouper_groups_witness :
    ([⟨0, 0, 1, 7⟩, ⟨0, 0, 2, 3⟩] ∈
      grouperRuns [] [⟨0, 0, 1, 7⟩, ⟨0, 0, 2, 3⟩]) ∧
    2 ≤ ([⟨0, 0, 1, 7⟩, ⟨0, 0, 2, 3⟩] : List LshBucketRow).length ∧
    List.Sorted (fun a b : DuplicatesGroupItem => a.content_hash ≤ b.content_hash)
      (flushGroup [⟨0, 0, 1, 7⟩, ⟨0, 0, 2, 3⟩]) :=
  ⟨by decide,
    (c4_grouper_groups [⟨0, 0, 1, 7⟩, ⟨0, 0, 2, 3⟩] _ (by decide)).1,
    (c4_grouper_groups [⟨0, 0, 1, 7⟩, ⟨0, 0, 2, 3⟩] _ (by decide)).2.2.2⟩

/-- One step of the filter-writing loop of `build_filters`
(`operations.rs`): append `row.content_hash` to the filter stream of
`row.path_hash` (creating it when absent). -/
def filterWrite (writers : Nat → List Nat) (row : DuplicatesGroupItem) :
    Nat → List Nat :=
  fun p => if p = row.path_hash then writers p ++ [row.content_hash] else writers p

/-- Model of `build_filters` (`operations.rs`) on an in-memory groups
stream: for every group, the items at positions `1..n` (i.e. all but the
first) have their `content_hash` appended to the filter of their own
`path_hash`; the result maps each path hash to its filter contents in
write order. -/
def build_filters (groups : List (List DuplicatesGroupItem)) : Nat → List Nat :=
  groups.foldl (fun writers g => (g.drop 1).foldl filterWrite writers)
    (fun _ => [])

theorem foldl_filterWrite_eq (p : Nat) :
    ∀ (items : List DuplicatesGroupItem) (writers : Nat → List Nat),
      (items.foldl filterWrite writers) p =
        writers p ++
          ((items.filter (fun it => it.path_hash == p)).map
            (fun it => it.content_hash))
  | [], writers => by simp
  | it :: items, writers => by
      simp only [List.foldl]
      rw [foldl_filterWrite_eq p items (filterWrite writers it)]
      by_cases hp : it.path_hash = p
      · simp [filterWrite, hp, List.filter_cons]
      · simp [filterWrite, hp, List.filter_cons, Ne.symm hp]

theorem build_filters_foldl_eq (p : Nat) :
    ∀ (groups : List (List DuplicatesGroupItem)) (writers : Nat → List Nat),
      (groups.foldl (fun w g => (g.drop 1).foldl filterWrite w) writers) p =
        writers p ++
          (((groups.flatMap (fun g => g.drop 1)).filter
              (fun it => it.path_hash == p)).map (fun it => it.content_hash))
  | [], writers => by simp
  | g :: groups, writers => by
      simp only [List.foldl, List.flatMap_cons, List.filter_append, List.map_append]
      rw [build_filters_foldl_eq p groups ((g.drop 1).foldl filterWrite writers)]
      rw [foldl_filterWrite_eq p (g.drop 1) writers]
      simp [List.append_assoc]

/-- C5 (counterexample): a concrete reachable groups file refuting the
uniqueness part of the claim.  The merged stream `[(0,0,0,5), (0,0,1,5)]`
(two rows with EQUAL content hash 5, as happens for two identical
documents in different files) produces the single duplicate group
`[(0,5), (1,5)]`, in which the member with the minimum `content_hash` is
NOT unique: both members attain the minimum. -/
theorem c5_counterexample :
    find_duplicates_in_lsh_buckets [⟨0, 0, 0, 5⟩, ⟨0, 0, 1, 5⟩] =
      [[⟨0, 5⟩, ⟨1, 5⟩]] ∧
    ¬ ∃! it : DuplicatesGroupItem,
        it ∈ ([⟨0, 5⟩, ⟨1, 5⟩] : List DuplicatesGroupItem) ∧
        ∀ o ∈ ([⟨0, 5⟩, ⟨1, 5⟩] : List DuplicatesGroupItem),
          it.content_hash ≤ o.content_hash := by
  constructor
  · decide
  · rintro ⟨it, -, huniq⟩
    have h1 : (⟨0, 5⟩ : DuplicatesGroupItem) = it := huniq ⟨0, 5⟩ (by decide)
    have h2 : (⟨1, 5⟩ : DuplicatesGroupItem) = it := huniq ⟨1, 5⟩ (by decide)
    exact absurd (h1.trans h2.symm) (by decide)

/-- C5 (amended): for every duplicate group read by the filter builder,
the writes performed for that group are exactly the items at positions
`1..n` — each such item's `content_hash` is appended to the filter of its
own `path_hash`, and the item at position 0 is written to no filter —
and for every group produced by the grouper the surviving item at
position 0 has a minimal `content_hash` in its group (minimal, but not
necessarily the UNIQUE minimum, since several members may share the
minimal content hash). -/
theorem c5_filter_builder_amended :
    (∀ (groups : List (List DuplicatesGroupItem)) (p : Nat),
      build_filters groups p =
        (((groups.flatMap (fun g => g.drop 1)).filter
            (fun it => it.path_hash == p)).map (fun it => it.content_hash))) ∧
    (∀ (stream : List LshBucketRow) (g : List DuplicatesGroupItem),
      g ∈ find_duplicates_in_lsh_buckets stream →
      ∀ hd, g.head? = some hd →
        ∀ it ∈ g, hd.content_hash ≤ it.content_hash) := by
  constructor
  · intro groups p
    unfold build_filters
    rw [build_filters_foldl_eq p groups (fun _ => [])]
    simp
  · intro stream g hg hd hhd it hit
    obtain ⟨run, -, rfl⟩ := List.mem_map.1 hg
    have hsorted := flushGroup_sorted run
    cases hgr : flushGroup run with
    | nil => rw [hgr] at hhd; simp at hhd
    | cons x xs =>
        rw [hgr] at hhd hit hsorted
        have hx : x = hd := by simpa using hhd
        subst hx
        rcases List.mem_cons.1 hit with rfl | hit'
        · exact Nat.le_refl _
        · exact List.rel_of_sorted_cons hsorted it hit'

/-- Witness for C5 (amended) at the concrete stream of the
counterexample: position-0 item is written to no filter, the position-1
item lands in the filter of its own path hash, and the head has minimal
content hash. -/
theorem c5_filter_builder_amended_witness :
    build_filters [[⟨0, 5⟩, ⟨1, 5⟩]] 1 = [5] ∧
    build_filters [[⟨0, 5⟩, ⟨1, 5⟩]] 0 = [] ∧
    (([⟨0, 5⟩, ⟨1, 5⟩] : List DuplicatesGroupItem) ∈
      find_duplicates_in_lsh_buckets [⟨0, 0, 0, 5⟩, ⟨0, 0, 1, 5⟩]) ∧
    ∀ it ∈ ([⟨0, 5⟩, ⟨1, 5⟩] : List DuplicatesGroupItem),
      (5 : Nat) ≤ it.content_hash := by
  refine ⟨?_, ?_, by decide, ?_⟩
  · rw [c5_filter_builder_amended.1 [[⟨0, 5⟩, ⟨1, 5⟩]] 1]; decide
  · rw [c5_filter_builder_amended.1 [[⟨0, 5⟩, ⟨1, 5⟩]] 0]; decide
  · intro it hit
    exact c5_filter_builder_amended.2 [⟨0, 0, 0, 5⟩, ⟨0, 0, 1, 5⟩]
      [⟨0, 5⟩, ⟨1, 5⟩] (by decide) ⟨0, 5⟩ (by decide) it hit

/-- Model of `Context::canonicalize` (`context.rs`) for POSIX paths:
`Path::components` yields a root component for a leading slash and skips
empty and current-dir components; the fold then pops on a parent-dir
component and pushes normal components. -/
def canonicalize (path : String) : String :=
  let comps := (path.splitOn "/").filter (fun c => c ≠ "" && c ≠ ".")
  let ret := comps.foldl
    (fun acc c => if c = ".." then acc.dropLast else acc ++ [c]) []
  (if path.startsWith "/" then "/" else "") ++ String.intercalate "/" ret

/-- The run-file sidecar metadata `LshBucketsMeta` (`lsh.rs`). -/
structure LshBucketsMeta where
  files : List String
  column_name : String
  file_prefix : String
deriving DecidableEq, Repr

/-- The writer state of `LshBucketRowsFilesWriter` (`lsh.rs`). -/
structure LshBucketRowsFilesWriter where
  folder : String
  meta : LshBucketsMeta
  rows : List LshBucketRow
  buckets_size_limit : Nat
deriving DecidableEq, Repr

/-- Lexicographic comparison of path strings, the order of
`self.meta.files.sort()`. -/
def strLe (a b : String) : Prop := a ≤ b

instance strLe.instDecidable : DecidableRel strLe := fun a b =>
  inferInstanceAs (Decidable (a ≤ b))

instance strLe.instIsTotal : IsTotal String strLe := ⟨fun a b => le_total a b⟩

instance strLe.instIsTrans : IsTrans String strLe :=
  ⟨fun _ _ _ h1 h2 => le_trans h1 h2⟩

instance rowLe.instIsTotal : IsTotal LshBucketRow rowLe := ⟨rowLe_total⟩

instance rowLe.instIsTrans : IsTrans LshBucketRow rowLe :=
  ⟨fun _ _ _ h1 h2 => rowLe_trans h1 h2⟩

/-- The data written to disk by one successful non-empty `flush`. -/
structure FlushOutput where
  rows_file : String
  rows_written : List LshBucketRow
  meta_file : String
  meta_written : LshBucketsMeta
deriving DecidableEq, Repr

/-- Model of `LshBucketRowsFilesWriter::flush` (`lsh.rs`).  `fs` is the
set of file paths already present on disk and `p` the fresh prefix
minted by `Uuid::new_v4()`.  Empty row buffer: immediate success with no
write.  Otherwise the target rows-file path must not exist (the
`assert!`, modelled as fatal `none`); the meta file list is sorted
lexicographically, the record buffer is sorted in natural order, both
are written under the prefix, and the buffer and the meta file list are
cleared. -/
def LshBucketRowsFilesWriter.flush (fs : List String) (p : String)
    (st : LshBucketRowsFilesWriter) :
    Option (LshBucketRowsFilesWriter × Option FlushOutput) :=
  if st.rows.isEmpty then some (st, none)
  else
    if canonicalize (st.folder ++ "/" ++ p ++ ".lsh_rows") ∈ fs then none
    else
      some
        ({ st with
            meta := { files := [], column_name := st.meta.column_name, file_prefix := p }
            rows := [] },
          some
            { rows_file := canonicalize (st.folder ++ "/" ++ p ++ ".lsh_rows")
              rows_written := List.insertionSort rowLe st.rows
              meta_file := canonicalize (st.folder ++ "/" ++ p ++ ".lsh_meta")
              meta_written :=
                { files := List.insertionSort strLe st.meta.files
                  column_name := st.meta.column_name
                  file_prefix := p } })

/-- Size in bytes of one packed `LshBucketRow` on disk
(`mem::size_of_val` of the `repr(packed)` struct): `1 + 8 + 2 + 8`. -/
def ROW_SIZE : Nat := 19

/-- The writer state after the unconditional first half of
`write_rows`: `self.rows.extend(rows)`,
`self.meta.files.push(source_file.clone())`,
`self.meta.column_name = column_name.clone()`. -/
def LshBucketRowsFilesWriter.afterAppend (st : LshBucketRowsFilesWriter)
    (source_file column_name : String) (rows : List LshBucketRow) :
    LshBucketRowsFilesWriter :=
  { st with
      rows := st.rows ++ rows
      meta := { st.meta with
                  files := st.meta.files ++ [source_file]
                  column_name := column_name } }

/-- Model of `LshBucketRowsFilesWriter::write_rows` (`lsh.rs`): extend
the row buffer, unconditionally push `source_file` onto `meta.files`,
assert the column name is unset or unchanged (fatal `none` otherwise),
set the column name, and flush when the buffer is non-empty and its byte
size reaches `buckets_size_limit`. -/
def LshBucketRowsFilesWriter.write_rows (fs : List String) (p : String)
    (st : LshBucketRowsFilesWriter) (source_file column_name : String)
    (rows : List LshBucketRow) :
    Option (LshBucketRowsFilesWriter × Option FlushOutput) :=
  if st.meta.column_name ≠ "" ∧ st.meta.column_name ≠ column_name then none
  else
    if ¬ (st.afterAppend source_file column_name rows).rows.isEmpty ∧
        ROW_SIZE * (st.afterAppend source_file column_name rows).rows.length ≥
          (st.afterAppend source_file column_name rows).buckets_size_limit then
      LshBucketRowsFilesWriter.flush fs p (st.afterAppend source_file column_name rows)
    else some (st.afterAppend source_file column_name rows, none)

/-- The resumability scan of
`process_parquet_files_from_folder_to_lsh_buckets_files`
(`operations.rs`), reduced to its data content: metas whose column name
differs from the requested one are discarded (deleted on disk); every
input path listed by a surviving meta is marked processed; the worker
pool then runs only over input files not marked processed. -/
def resumeUnprocessed (metas : List LshBucketsMeta) (column_name : String)
    (input_files : List String) : List String :=
  let surviving := metas.filter (fun m => m.column_name == column_name)
  let processed := surviving.flatMap (fun m => m.files)
  input_files.filter (fun f => ¬ processed.contains f)

/-- C8: `flush` is a no-op returning success on an empty record buffer;
otherwise it fails fast when the target rows-file path already exists,
and on success it writes, under the fresh prefix, the meta with its
`files` sorted lexicographically and the record buffer sorted in natural
order (both as permutations of the buffered data), leaving the record
buffer and `meta.files` empty afterwards. -/
theorem c8_flush_contract (fs : List String) (p : String)
    (st : LshBucketRowsFilesWriter) :
    (st.rows = [] → LshBucketRowsFilesWriter.flush fs p st = some (st, none)) ∧
    (st.rows ≠ [] →
      canonicalize (st.folder ++ "/" ++ p ++ ".lsh_rows") ∈ fs →
      LshBucketRowsFilesWriter.flush fs p st = none) ∧
    (st.rows ≠ [] →
      canonicalize (st.folder ++ "/" ++ p ++ ".lsh_rows") ∉ fs →
      ∃ st' out,
        LshBucketRowsFilesWriter.flush fs p st = some (st', some out) ∧
        st'.rows = [] ∧
        st'.meta.files = [] ∧
        st'.meta.column_name = st.meta.column_name ∧
        List.Sorted strLe out.meta_written.files ∧
        out.meta_written.files.Perm st.meta.files ∧
        out.meta_written.column_name = st.meta.column_name ∧
        LshBucketsMeta.file_prefix out.meta_written = p ∧
        List.Sorted rowLe out.rows_written ∧
        out.rows_written.Perm st.rows ∧
        out.rows_file = canonicalize (st.folder ++ "/" ++ p ++ ".lsh_rows")) := by
  refine ⟨?_, ?_, ?_⟩
  · intro h
    simp [LshBucketRowsFilesWriter.flush, h]
  · intro h hmem
    have he : st.rows.isEmpty = false := by
      cases hr : st.rows
      · exact absurd hr h
      · rfl
    simp [LshBucketRowsFilesWriter.flush, he, hmem]
  · intro h hmem
    have he : st.rows.isEmpty = false := by
      cases hr : st.rows
      · exact absurd hr h
      · rfl
    refine ⟨{ st with
        meta := { files := [], column_name := st.meta.column_name, file_prefix := p }
        rows := [] },
      { rows_file := canonicalize (st.folder ++ "/" ++ p ++ ".lsh_rows")
        rows_written := List.insertionSort rowLe st.rows
        meta_file := canonicalize (st.folder ++ "/" ++ p ++ ".lsh_meta")
        meta_written :=
          { files := List.insertionSort strLe st.meta.files
            column_name := st.meta.column_name
            file_prefix := p } },
      ?_, rfl, rfl, rfl,
      List.sorted_insertionSort strLe st.meta.files,
      List.perm_insertionSort strLe st.meta.files, rfl, rfl,
      List.sorted_insertionSort rowLe st.rows,
      List.perm_insertionSort rowLe st.rows, rfl⟩
    simp [LshBucketRowsFilesWriter.flush, he, hmem]

/-- Witness for C8 on a concrete writer state with a non-empty buffer,
unsorted file list and unsorted rows, flushing to an empty filesystem. -/
theorem c8_flush_contract_witness :
    ∃ st' out,
      LshBucketRowsFilesWriter.flush [] "x"
        ⟨"t", ⟨["b", "a"], "c", ""⟩, [⟨1, 0, 0, 0⟩, ⟨0, 0, 0, 0⟩], 100⟩ =
        some (st', some out) ∧
      st'.rows = [] ∧
      st'.meta.files = [] ∧
      List.Sorted strLe out.meta_written.files ∧
      List.Sorted rowLe out.rows_written := by
  obtain ⟨st', out, h1, h2, h3, -, h5, -, -, -, h9, -, -⟩ :=
    (c8_flush_contract [] "x"
      ⟨"t", ⟨["b", "a"], "c", ""⟩, [⟨1, 0, 0, 0⟩, ⟨0, 0, 0, 0⟩], 100⟩).2.2
      (by decide) (List.not_mem_nil _)
  exact ⟨st', out, h1, h2, h3, h5, h9⟩

/-- C10: `write_rows` pushes `source_file` onto `meta.files`
unconditionally — also when the supplied `rows` vector is empty — so on
success either no flush happened and the new state's `meta.files` is the
old list with `source_file` appended, or a flush happened and
`source_file` appears in the written meta's file list; and any input
file listed in a surviving meta (same column name) is excluded from the
files the resumed Signer processes. -/
theorem c10_write_rows_unconditional_append (fs : List String) (p : String)
    (st : LshBucketRowsFilesWriter) (source_file column_name : String)
    (rows : List LshBucketRow) :
    (∀ st' out,
      LshBucketRowsFilesWriter.write_rows fs p st source_file column_name rows =
        some (st', out) →
      (out = none → st'.meta.files = st.meta.files ++ [source_file]) ∧
      (∀ o, out = some o → source_file ∈ o.meta_written.files)) ∧
    (∀ (metas : List LshBucketsMeta) (m : LshBucketsMeta) (inputs : List String),
      m ∈ metas → m.column_name = column_name → source_file ∈ m.files →
      source_file ∉ resumeUnprocessed metas column_name inputs) := by
  constructor
  · intro st' out heq
    unfold LshBucketRowsFilesWriter.write_rows at heq
    split at heq
    · exact absurd heq (by simp)
    · split at heq
      · rename_i hcond
        unfold LshBucketRowsFilesWriter.flush at heq
        split at heq
        · rename_i hemp
          exact absurd hemp (by simpa using hcond.1)
        · split at heq
          · exact absurd heq (by simp)
          · simp only [Option.some.injEq, Prod.mk.injEq] at heq
            obtain ⟨-, hout⟩ := heq
            constructor
            · intro hnone
              rw [← hout] at hnone
              exact absurd hnone (by simp)
            · intro o ho
              rw [← hout] at ho
              simp only [Option.some.injEq] at ho
              subst ho
              simp [List.mem_insertionSort, LshBucketRowsFilesWriter.afterAppend]
      · simp only [Option.some.injEq, Prod.mk.injEq] at heq
        obtain ⟨hst, hout⟩ := heq
        constructor
        · intro _
          rw [← hst]
          rfl
        · intro o ho
          rw [← hout] at ho
          exact absurd ho (by simp)
  · intro metas m inputs hm hcol hsrc
    intro hmem
    have hproc : source_file ∈
        (metas.filter (fun m' => m'.column_name == column_name)).flatMap
          (fun m' => m'.files) :=
      List.mem_flatMap.2 ⟨m, List.mem_filter.2 ⟨hm, by simp [hcol]⟩, hsrc⟩
    unfold resumeUnprocessed at hmem
    simp only [List.mem_filter] at hmem
    obtain ⟨-, hpred⟩ := hmem
    simp only [decide_not, Bool.not_eq_eq_eq_not, Bool.not_true,
      decide_eq_false_iff_not] at hpred
    exact absurd (by simpa using hproc) hpred

/-- Witness for C10: a call with an EMPTY rows vector still records the
source file in the meta, and a file listed in a surviving meta is
skipped on resume. -/
theorem c10_write_rows_unconditional_append_witness :
    LshBucketRowsFilesWriter.write_rows [] "p"
        ⟨"t", ⟨[], "", ""⟩, [], 1000⟩ "f" "content" [] =
      some (⟨"t", ⟨["f"], "content", ""⟩, [], 1000⟩, none) ∧
    (⟨"t", ⟨["f"], "content", ""⟩, [], 1000⟩ : LshBucketRowsFilesWriter).meta.files =
      (⟨"t", ⟨[], "", ""⟩, [], 1000⟩ : LshBucketRowsFilesWriter).meta.files ++ ["f"] ∧
    "f" ∉ resumeUnprocessed [⟨["f"], "content", "x"⟩] "content" ["f", "g"] := by
  refine ⟨by decide, ?_, ?_⟩
  · exact ((c10_write_rows_unconditional_append [] "p"
      ⟨"t", ⟨[], "", ""⟩, [], 1000⟩ "f" "content" []).1
      ⟨"t", ⟨["f"], "content", ""⟩, [], 1000⟩ none (by decide)).1 rfl
  · exact (c10_write_rows_unconditional_append [] "p"
      ⟨"t", ⟨[], "", ""⟩, [], 1000⟩ "f" "content" []).2
      [⟨["f"], "content", "x"⟩] ⟨["f"], "content", "x"⟩ ["f", "g"]
      (List.mem_singleton.2 rfl) rfl (by decide)

/-- One processed input file of the applier model: its path and the
texts of its rows, as yielded by the parquet reader. -/
def ApplierInput : Type := String × List String

/-- The per-file body of `apply_filter_to_files` (`operations.rs`).
`hash_path` models `Context::hash_path`, `h64` models
`cityhasher::hash::<u64>` on row texts, `outName` the
`md5`-derived output path, and `filters` the on-disk filter files:
`filters ph = none` when no `<ph>.filter` exists, otherwise the decoded
content hashes.  When no filter file exists the file is SKIPPED — no
output file is produced and no counter moves (the `continue`); otherwise
rows whose content hash is in the filter set are dropped and the rest
are written to a fresh output file, with the total and filtered counters
advanced. -/
def applyFilterStep (hash_path : String → Nat) (h64 : String → Nat)
    (outName : String → String) (filters : Nat → Option (List Nat))
    (acc : List (String × List String) × Nat × Nat) (file : String × List String) :
    List (String × List String) × Nat × Nat :=
  match filters (hash_path file.1) with
  | none => acc
  | some filters_set =>
      (acc.1 ++
          [(outName file.1,
            file.2.filter (fun text => ¬ filters_set.contains (h64 text)))],
        acc.2.1 + file.2.length,
        acc.2.2 + (file.2.filter (fun text => filters_set.contains (h64 text))).length)

/-- Model of `apply_filter_to_files` (`operations.rs`) over a worker's
file slice: returns the written output files (path and kept rows) and
the two counters `(num_total, num_filtered)` accumulated over the
processed files. -/
def apply_filter_to_files (hash_path : String → Nat) (h64 : String → Nat)
    (outName : String → String) (filters : Nat → Option (List Nat))
    (files : List (String × List String)) :
    List (String × List String) × Nat × Nat :=
  files.foldl (applyFilterStep hash_path h64 outName filters) ([], 0, 0)

theorem apply_foldl_outputs (hash_path : String → Nat) (h64 : String → Nat)
    (outName : String → String) (filters : Nat → Option (List Nat)) :
    ∀ (files : List (String × List String))
      (acc : List (String × List String) × Nat × Nat),
      (files.foldl (applyFilterStep hash_path h64 outName filters) acc).1.length =
        acc.1.length +
          (files.filter (fun f => (filters (hash_path f.1)).isSome)).length
  | [], acc => by simp
  | f :: files, acc => by
      simp only [List.foldl]
      rw [apply_foldl_outputs hash_path h64 outName filters files]
      cases hf : filters (hash_path f.1) with
      | none => simp [applyFilterStep, hf, List.filter_cons]
      | some fl =>
          simp [applyFilterStep, hf, List.filter_cons]
          omega

/-- C1 (code bug evidence): the applier produces one output file per
input file WITH a filter file and none for input files without one — the
1:1 copy claimed by the spec never happens.  In particular, for a single
input file with two all-distinct rows and no filter file on disk, the
run produces no output file at all (and counts no rows), instead of an
output file with the input's two rows. -/
theorem c1_applier_skips_unfiltered_files :
    (∀ (hash_path h64 : String → Nat) (outName : String → String)
      (filters : Nat → Option (List Nat)) (files : List (String × List String)),
      (apply_filter_to_files hash_path h64 outName filters files).1.length =
        (files.filter (fun f => (filters (hash_path f.1)).isSome)).length) ∧
    apply_filter_to_files (fun _ => 0) (fun _ => 0) (fun s => s) (fun _ => none)
      [("f", ["a", "b"])] = ([], 0, 0) := by
  constructor
  · intro hash_path h64 outName filters files
    rw [apply_filter_to_files,
      apply_foldl_outputs hash_path h64 outName filters files ([], 0, 0)]
    simp
  · rfl

/-- The heap entry contributed by one reader stream: its current head,
tagged with the stream index (empty streams contribute nothing). -/
def headEntry (i : Nat) (s : List LshBucketRow) : List (Nat × LshBucketRow) :=
  match s.head? with
  | some h => [(i, h)]
  | none => []

/-- The entries held by the merger's heap when the remaining suffixes of
the reader streams are `streams`, indexed from `i`: one entry per
non-empty stream, carrying that stream's next record (`lsh.rs` primes
the heap with one record per non-empty reader and, after every pop,
refills from the popped reader). -/
def headsFrom : Nat → List (List LshBucketRow) → List (Nat × LshBucketRow)
  | _, [] => []
  | i, s :: rest => headEntry i s ++ headsFrom (i + 1) rest

/-- All current heap entries of the merger. -/
def mergeHeads (streams : List (List LshBucketRow)) : List (Nat × LshBucketRow) :=
  headsFrom 0 streams

/-- Choosing between the current best heap entry and another entry `e`:
`BinaryHeap::pop` returns the maximum entry of
`(ReverseOrderedLshBucketRow, usize)` pairs, i.e. the entry with the
minimal record, ties broken towards the larger stream index. -/
def popStep (best : Option (Nat × LshBucketRow)) (e : Nat × LshBucketRow) :
    Option (Nat × LshBucketRow) :=
  match best with
  | none => some e
  | some b =>
      if rowLt e.2 b.2 ∨ (e.2 = b.2 ∧ b.1 < e.1) then some e else some b

/-- The entry returned by `self.heap.pop()`. -/
def popEntry (hs : List (Nat × LshBucketRow)) : Option (Nat × LshBucketRow) :=
  hs.foldl popStep none

/-- The sequence of records returned by successive calls to
`LshBucketRowsFilesMerger::next` while `has_data_left()` holds: pop the
minimal entry, emit its record, advance that entry's stream (pull the
reader's next record and push it if present).  `fuel` bounds the number
of steps; with fuel at least the total record count the run drains every
stream. -/
def mergeRun : Nat → List (List LshBucketRow) → List LshBucketRow
  | 0, _ => []
  | fuel + 1, streams =>
      match popEntry (mergeHeads streams) with
      | none => []
      | some e =>
          e.2 :: mergeRun fuel (streams.set e.1 ((streams.getD e.1 []).drop 1))

/-- The full merged stream over all run files. -/
def merge_all (streams : List (List LshBucketRow)) : List LshBucketRow :=
  mergeRun (streams.map List.length).sum streams

theorem popStep_take_le {e b : Nat × LshBucketRow}
    (h : rowLt e.2 b.2 ∨ (e.2 = b.2 ∧ b.1 < e.1)) : rowLe e.2 b.2 := by
  rcases h with h | h
  · exact h.1
  · exact h.1 ▸ rowLe_refl _

theorem popStep_keep_le {e b : Nat × LshBucketRow}
    (h : ¬ (rowLt e.2 b.2 ∨ (e.2 = b.2 ∧ b.1 < e.1))) : rowLe b.2 e.2 := by
  by_cases hbe : rowLe b.2 e.2
  · exact hbe
  · rcases rowLe_total b.2 e.2 with hx | hx
    · exact hx
    · exact absurd (Or.inl ⟨hx, hbe⟩) h

theorem popFold_spec :
    ∀ (t : List (Nat × LshBucketRow)) (b : Nat × LshBucketRow),
      ∃ c, t.foldl popStep (some b) = some c ∧ (c = b ∨ c ∈ t) ∧
        rowLe c.2 b.2 ∧ ∀ x ∈ t, rowLe c.2 x.2
  | [], b => ⟨b, rfl, Or.inl rfl, rowLe_refl _, by simp⟩
  | e :: t, b => by
      by_cases hc : rowLt e.2 b.2 ∨ (e.2 = b.2 ∧ b.1 < e.1)
      · have hps : popStep (some b) e = some e := by simp [popStep, hc]
        rw [List.foldl_cons, hps]
        obtain ⟨c, hfold, hmem, hle, hall⟩ := popFold_spec t e
        refine ⟨c, hfold, ?_, rowLe_trans hle (popStep_take_le hc), ?_⟩
        · right
          rcases hmem with rfl | hm
          · exact List.mem_cons_self c t
          · exact List.mem_cons_of_mem e hm
        · intro x hx
          rcases List.mem_cons.1 hx with rfl | hx'
          · exact hle
          · exact hall x hx'
      · have hps : popStep (some b) e = some b := by simp [popStep, hc]
        rw [List.foldl_cons, hps]
        obtain ⟨c, hfold, hmem, hle, hall⟩ := popFold_spec t b
        refine ⟨c, hfold, ?_, hle, ?_⟩
        · rcases hmem with rfl | hm
          · exact Or.inl rfl
          · exact Or.inr (List.mem_cons_of_mem e hm)
        · intro x hx
          rcases List.mem_cons.1 hx with rfl | hx'
          · exact rowLe_trans hle (popStep_keep_le hc)
          · exact hall x hx'

theorem popEntry_spec (hs : List (Nat × LshBucketRow)) (e : Nat × LshBucketRow)
    (heq : popEntry hs = some e) : e ∈ hs ∧ ∀ x ∈ hs, rowLe e.2 x.2 := by
  cases hs with
  | nil => cases heq
  | cons h t =>
      obtain ⟨c, hfold, hmem, hle, hall⟩ := popFold_spec t h
      have hpe : popEntry (h :: t) = some c := by
        simpa [popEntry, popStep] using hfold
      rw [hpe] at heq
      obtain rfl := Option.some.inj heq
      refine ⟨?_, ?_⟩
      · rcases hmem with rfl | hm
        · exact List.mem_cons_self _ _
        · exact List.mem_cons_of_mem h hm
      · intro x hx
        rcases List.mem_cons.1 hx with rfl | hx'
        · exact hle
        · exact hall x hx'

theorem headsFrom_set_bound (lb : LshBucketRow) :
    ∀ (streams : List (List LshBucketRow)) (base i : Nat),
      (∀ q ∈ headsFrom base streams, rowLe lb q.2) →
      (∀ s ∈ streams, List.Chain' rowLe s) →
      ∀ q ∈ headsFrom base (streams.set i ((streams.getD i []).drop 1)), rowLe lb q.2
  | [], _, _, _, _, q, hq => by simp [headsFrom] at hq
  | s :: rest, base, 0, hlb, hch, q, hq => by
      simp only [List.getD_cons_zero, List.set_cons_zero, headsFrom,
        List.mem_append] at hq
      rcases hq with hq | hq
      · cases s with
        | nil => simp [headEntry] at hq
        | cons a t =>
            cases t with
            | nil => simp [headEntry] at hq
            | cons a2 t2 =>
                simp only [List.drop_succ_cons, List.drop_zero, headEntry,
                  List.head?_cons, List.mem_singleton] at hq
                subst hq
                have hla : rowLe lb a := by
                  have := hlb (base, a)
                  simp [headsFrom, headEntry] at this
                  exact this
                have haa2 : rowLe a a2 :=
                  (List.chain'_cons.1 (hch (a :: a2 :: t2) (List.mem_cons_self _ _))).1
                exact rowLe_trans hla haa2
      · refine hlb q ?_
        simp only [headsFrom, List.mem_append]
        exact Or.inr hq
  | s :: rest, base, i + 1, hlb, hch, q, hq => by
      simp only [List.getD_cons_succ, List.set_cons_succ, headsFrom,
        List.mem_append] at hq
      rcases hq with hq | hq
      · refine hlb q ?_
        simp only [headsFrom, List.mem_append]
        exact Or.inl hq
      · refine headsFrom_set_bound lb rest (base + 1) i ?_ ?_ q hq
        · intro x hx
          refine hlb x ?_
          simp only [headsFrom, List.mem_append]
          exact Or.inr hx
        · intro x hx
          exact hch x (List.mem_cons_of_mem s hx)

theorem chains_preserved (streams : List (List LshBucketRow)) (i : Nat)
    (hch : ∀ s ∈ streams, List.Chain' rowLe s) :
    ∀ s ∈ streams.set i ((streams.getD i []).drop 1), List.Chain' rowLe s := by
  intro s hs
  rcases List.mem_or_eq_of_mem_set hs with hm | rfl
  · exact hch s hm
  · rcases Nat.lt_or_ge i streams.length with hi | hi
    · have hmem : streams.getD i [] ∈ streams := by
        rw [List.getD_eq_getElem streams [] hi]
        exact List.getElem_mem hi
      have := hch _ hmem
      simpa [List.drop_one] using this.tail
    · rw [List.getD_eq_default streams [] hi]
      simp

theorem mergeRun_lb :
    ∀ (fuel : Nat) (streams : List (List LshBucketRow)) (lb : LshBucketRow),
      (∀ q ∈ mergeHeads streams, rowLe lb q.2) →
      (∀ s ∈ streams, List.Chain' rowLe s) →
      ∀ r ∈ mergeRun fuel streams, rowLe lb r
  | 0, _, _, _, _, r, hr => absurd hr (List.not_mem_nil r)
  | fuel + 1, streams, lb, hlb, hch, r, hr => by
      simp only [mergeRun] at hr
      cases hpop : popEntry (mergeHeads streams) with
      | none => rw [hpop] at hr; exact absurd hr (List.not_mem_nil r)
      | some e =>
          rw [hpop] at hr
          obtain ⟨hmem, hmin⟩ := popEntry_spec _ e hpop
          rcases List.mem_cons.1 hr with rfl | hr'
          · exact hlb e hmem
          · refine mergeRun_lb fuel _ lb ?_ (chains_preserved streams e.1 hch) r hr'
            intro q hq
            exact rowLe_trans (hlb e hmem)
              (headsFrom_set_bound e.2 streams 0 e.1 hmin hch q hq)

theorem mergeRun_chain :
    ∀ (fuel : Nat) (streams : List (List LshBucketRow)),
      (∀ s ∈ streams, List.Chain' rowLe s) →
      List.Chain' rowLe (mergeRun fuel streams)
  | 0, _, _ => List.chain'_nil
  | fuel + 1, streams, hch => by
      simp only [mergeRun]
      cases hpop : popEntry (mergeHeads streams) with
      | none => exact List.chain'_nil
      | some e =>
          obtain ⟨hmem, hmin⟩ := popEntry_spec _ e hpop
          have hch' := chains_preserved streams e.1 hch
          refine List.chain'_cons'.2 ⟨?_, mergeRun_chain fuel _ hch'⟩
          intro b hb
          exact mergeRun_lb fuel _ e.2
            (fun q hq => headsFrom_set_bound e.2 streams 0 e.1 hmin hch q hq)
            hch' b (List.mem_of_mem_head? hb)

/-- C6: when every opened run file yields a non-decreasing stream of
records, the sequence of records returned by successive calls to the
merger's `next()` while `has_data_left()` holds — the merge run, for any
step budget — is monotonically non-decreasing in the natural record
order. -/
theorem c6_merged_stream_monotone (streams : List (List LshBucketRow))
    (hsorted : ∀ s ∈ streams, List.Chain' rowLe s) :
    List.Chain' rowLe (merge_all streams) ∧
    ∀ fuel, List.Chain' rowLe (mergeRun fuel streams) :=
  ⟨mergeRun_chain _ streams hsorted,
    fun fuel => mergeRun_chain fuel streams hsorted⟩

/-- Witness for C6 on two concrete sorted run files whose records
interleave in the merged order. -/
theorem c6_merged_stream_monotone_witness :
    (∀ s ∈ ([[⟨0, 0, 0, 0⟩, ⟨0, 2, 0, 0⟩], [⟨0, 1, 0, 0⟩]] :
        List (List LshBucketRow)), List.Chain' rowLe s) ∧
    List.Chain' rowLe
      (merge_all [[⟨0, 0, 0, 0⟩, ⟨0, 2, 0, 0⟩], [⟨0, 1, 0, 0⟩]]) := by
  have hs : ∀ s ∈ ([[⟨0, 0, 0, 0⟩, ⟨0, 2, 0, 0⟩], [⟨0, 1, 0, 0⟩]] :
      List (List LshBucketRow)), List.Chain' rowLe s := by
    intro s hs
    rcases List.mem_cons.1 hs with rfl | hs
    · exact List.chain'_pair.2 (by decide)
    · rcases List.mem_singleton.1 hs with rfl
      exact List.chain'_singleton _
  exact ⟨hs,
    (c6_merged_stream_monotone [[⟨0, 0, 0, 0⟩, ⟨0, 2, 0, 0⟩], [⟨0, 1, 0, 0⟩]]
      hs).1⟩

/-- Witness for C1 at its concrete failing input. -/
theorem c1_applier_skips_unfiltered_files_witness :
    (apply_filter_to_files (fun _ => 0) (fun _ => 0) (fun s => s)
        (fun _ => none) [("f", ["a", "b"])]).1.length =
      (([("f", ["a", "b"])] : List (String × List String)).filter
        (fun f => ((fun _ => (none : Option (List Nat))) ((fun _ => 0) f.1)).isSome)).length :=
  c1_applier_skips_unfiltered_files.1 (fun _ => 0) (fun _ => 0) (fun s => s)
    (fun _ => none) [("f", ["a", "b"])]

/-- Witness for C2 at a concrete trivial PRNG. -/
theorem c2_permutations_code_bug_witness :
    (PERMUTATIONS (fun lo _ (g : Nat) => (lo, g)) 0).2 = [] ∧
    (PERMUTATIONS (fun lo _ (g : Nat) => (lo, g)) 0).1.length = 2 * NUM_PERM :=
  ⟨(c2_permutations_code_bug (fun lo _ (g : Nat) => (lo, g)) 0).1,
    (c2_permutations_code_bug (fun lo _ (g : Nat) => (lo, g)) 0).2.1⟩

/-- Witness for C3 (amended) at concrete records equal on the
`(bucket_index, bucket_hash)` prefix. -/
theorem c3_reader_enforces_prefix_order_witness :
    readerNext (some ⟨0, 0, 9, 9⟩) ⟨0, 0, 0, 5⟩ = some ⟨0, 0, 0, 5⟩ :=
  (c3_reader_enforces_prefix_order ⟨0, 0, 9, 9⟩ ⟨0, 0, 0, 5⟩).2.1.2 (by decide)

/-- Witness for C7 at concrete hash functions and record fields. -/
theorem c7_empty_text_witness :
    tokenizeString (toLowercase "") = [] ∧
    (rowsForText (PERMUTATIONS (fun lo _ (g : Nat) => (lo, g)) 0)
        (fun _ => 0) (fun _ => 0) 3 4 "").length = LSH_BUCKETS :=
  ⟨(c7_empty_text (fun lo _ (g : Nat) => (lo, g)) 0 (fun _ => 0) (fun _ => 0)
      3 4 5 6).1,
    (c7_empty_text (fun lo _ (g : Nat) => (lo, g)) 0 (fun _ => 0) (fun _ => 0)
      3 4 5 6).2.2.1⟩
